import Mathlib

/-!
Verification of the blockbuster slot-record store (`store.go`) and its
scrape pipeline (`main.go`) against the natural-language specification.

The store is a shallow embedding of the Go code over an ordered key-value
map: badger keys `keySlot ++ bigEndian64(slot)` are modelled by the `Nat`
slot index (justified by the key-order theorem for `recordKey`), the
database by an association list sorted by slot, and machine integers by
`Nat`/`Int` with explicit `% 2^64` where the Go code converts.  The snappy
codec and the per-version SSZ marshal/unmarshal routines live in external
libraries; they enter the model as explicit `Codec` parameters, with their
round-trip contracts as hypotheses of the theorems that need them.
-/

namespace Blockbuster

/-- `secondsPerSlot` constant from `main.go`. -/
def secondsPerSlot : Nat := 12

/-- `scrapeSlots` constant from `main.go`: retention window in slots. -/
def scrapeSlots : Nat := 450 * 32

/-- `math.MaxInt` as the Go compiler converts it to `uint64`:
the sentinel version marking a confirmed-empty slot. -/
def maxIntU : Nat := 2 ^ 63 - 1

/-- `spec.DataVersion(math.MaxInt)` as a Go `int` (int64) value. -/
def maxIntI : Int := 2 ^ 63 - 1

/-- `binary.BigEndian.PutUint64` generalised to `w` bytes: most significant
byte first, truncating the input modulo `256 ^ w` exactly as the Go `uint64`
conversion does. -/
def beBytes : Nat → Nat → List Nat
  | 0, _ => []
  | w + 1, n => n / 256 ^ w % 256 :: beBytes w (n % 256 ^ w)

/-- `binary.BigEndian.Uint64`: fold the bytes most-significant first. -/
def beUint (l : List Nat) : Nat := l.foldl (fun acc b => acc * 256 + b) 0

theorem beBytes_length (w n : Nat) : (beBytes w n).length = w := by
  induction w generalizing n with
  | zero => rfl
  | succ w ih => simp [beBytes, ih]

theorem beBytes_foldl (w : Nat) : ∀ n acc,
    (beBytes w n).foldl (fun acc b => acc * 256 + b) acc = acc * 256 ^ w + n % 256 ^ w := by
  induction w with
  | zero => intro n acc; simp [beBytes, Nat.mod_one]
  | succ w ih =>
    intro n acc
    have hsplit : n % 256 ^ w + 256 ^ w * (n / 256 ^ w % 256) = n % 256 ^ (w + 1) := by
      rw [pow_succ]
      exact (Nat.mod_mul).symm
    simp only [beBytes, List.foldl_cons, ih]
    have hmm : n % 256 ^ w % 256 ^ w = n % 256 ^ w := Nat.mod_mod_of_dvd n dvd_rfl
    rw [hmm]
    ring_nf
    ring_nf at hsplit
    omega

theorem beUint_beBytes (w n : Nat) : beUint (beBytes w n) = n % 256 ^ w := by
  have := beBytes_foldl w n 0
  simpa [beUint] using this

theorem beUint_beBytes8 (n : Nat) (h : n < 2 ^ 64) : beUint (beBytes 8 n) = n := by
  have h256 : (256 : Nat) ^ 8 = 2 ^ 64 := by norm_num
  rw [beUint_beBytes, h256, Nat.mod_eq_of_lt h]

/-- Go `uint64 → int` (i.e. `int64`) conversion: two's complement. -/
def intOfUint64 (n : Nat) : Int := if n < 2 ^ 63 then (n : Int) else (n : Int) - 2 ^ 64

/-- Go `int → uint64` conversion: reduce modulo `2 ^ 64`. -/
def uint64OfInt (i : Int) : Nat := (i % (2 ^ 64 : Int)).toNat

theorem uint64OfInt_small (i : Int) (h0 : 0 ≤ i) (h1 : i < 2 ^ 63) :
    uint64OfInt i = i.toNat := by
  unfold uint64OfInt
  rw [Int.emod_eq_of_lt h0 (by omega)]

theorem intOfUint64_small (n : Nat) (h : n < 2 ^ 63) : intOfUint64 n = (n : Int) := by
  unfold intOfUint64
  rw [if_pos h]

/-- The version tag read by `Count` and `Block`:
`spec.DataVersion(binary.BigEndian.Uint64(val[:8]))`. -/
def readVersion (val : List Nat) : Int := intOfUint64 (beUint (val.take 8))

/-- The record key built by `Filled`, `Block`, `SetBlock` and `Purge`:
`append(keySlot, slotBytes[:])` with `keySlot = []byte{1}`. -/
def recordKey (slot : Nat) : List Nat := 1 :: beBytes 8 slot

/-- Strict lexicographic order on byte strings, as `bytes.Compare` orders
badger keys (a strict prefix sorts before its extensions). -/
def lexLt : List Nat → List Nat → Bool
  | _, [] => false
  | [], _ :: _ => true
  | a :: as, b :: bs => a < b || (a == b && lexLt as bs)

theorem lexLt_beBytes (w : Nat) : ∀ a b : Nat, a < 256 ^ w → b < 256 ^ w → a < b →
    lexLt (beBytes w a) (beBytes w b) = true := by
  induction w with
  | zero =>
    intro a b ha _ hab
    simp [Nat.pow_zero] at ha
    omega
  | succ w ih =>
    intro a b ha hb hab
    have hq : (0 : Nat) < 256 ^ w := Nat.pos_pow_of_pos w (by norm_num)
    have hda : a / 256 ^ w < 256 := by
      rw [Nat.div_lt_iff_lt_mul hq]
      calc a < 256 ^ (w + 1) := ha
        _ = 256 * 256 ^ w := by rw [pow_succ]; ring
    have hdb : b / 256 ^ w < 256 := by
      rw [Nat.div_lt_iff_lt_mul hq]
      calc b < 256 ^ (w + 1) := hb
        _ = 256 * 256 ^ w := by rw [pow_succ]; ring
    have hma : a / 256 ^ w % 256 = a / 256 ^ w := Nat.mod_eq_of_lt hda
    have hmb : b / 256 ^ w % 256 = b / 256 ^ w := Nat.mod_eq_of_lt hdb
    have hdle : a / 256 ^ w ≤ b / 256 ^ w := Nat.div_le_div_right (Nat.le_of_lt hab)
    simp only [beBytes, lexLt, hma, hmb]
    rcases Nat.lt_or_ge (a / 256 ^ w) (b / 256 ^ w) with hlt | hge
    · simp [hlt]
    · have heq : a / 256 ^ w = b / 256 ^ w := Nat.le_antisymm hdle hge
      have hra := Nat.div_add_mod a (256 ^ w)
      have hrb := Nat.div_add_mod b (256 ^ w)
      have hrlt : a % 256 ^ w < b % 256 ^ w := by
        have h1 : 256 ^ w * (a / 256 ^ w) + a % 256 ^ w = a := hra
        have h2 : 256 ^ w * (a / 256 ^ w) + b % 256 ^ w = b := by rw [heq]; exact hrb
        have := hab
        linarith
      have := ih (a % 256 ^ w) (b % 256 ^ w) (Nat.mod_lt a hq) (Nat.mod_lt b hq) hrlt
      simp [heq, this]

/-- An ordered key-value store restricted to the slot-record namespace:
an association list from slot index (the decoded 8-byte big-endian suffix of
the key) to the raw value bytes, kept in ascending key order as badger does. -/
abbrev DB := List (Nat × List Nat)

/-- `txn.Get` on a record key. -/
def dbGet : DB → Nat → Option (List Nat)
  | [], _ => none
  | (k, v) :: rest, s => if s = k then some v else dbGet rest s

/-- `txn.Set` on a record key: replaces an existing entry, otherwise inserts
at the key's ordered position. -/
def dbInsert : DB → Nat → List Nat → DB
  | [], k, v => [(k, v)]
  | (k', v') :: rest, k, v =>
    if k < k' then (k, v) :: (k', v') :: rest
    else if k = k' then (k, v) :: rest
    else (k', v') :: dbInsert rest k v

/-- Badger's key-ordering invariant on the modelled store. -/
def dbSorted (db : DB) : Prop := db.Pairwise (fun a b => a.1 < b.1)

instance (db : DB) : Decidable (dbSorted db) := by
  unfold dbSorted
  infer_instance

/-- The iteration inside `Purge`: `Seek` skips the entries whose key is below
`f` (they stay untouched), then every visited entry is deleted until the
first decoded slot exceeding `t` breaks the loop; returns the remaining
store and the deletion count. -/
def purgeLoop : DB → Nat → Nat → DB × Nat
  | [], _, _ => ([], 0)
  | (k, v) :: rest, f, t =>
    if k < f then
      ((k, v) :: (purgeLoop rest f t).1, (purgeLoop rest f t).2)
    else if t < k then ((k, v) :: rest, 0)
    else ((purgeLoop rest f t).1, (purgeLoop rest f t).2 + 1)

theorem dbGet_dbInsert_self (db : DB) (k : Nat) (v : List Nat) :
    dbGet (dbInsert db k v) k = some v := by
  induction db with
  | nil => simp [dbInsert, dbGet]
  | cons e rest ih =>
    obtain ⟨k', v'⟩ := e
    by_cases h1 : k < k'
    · simp [dbInsert, dbGet, h1]
    · by_cases h2 : k = k'
      · simp [dbInsert, dbGet, h1, h2]
      · simp [dbInsert, dbGet, h1, h2, ih]

theorem dbGet_dbInsert_ne (db : DB) (k : Nat) (v : List Nat) (s : Nat) (h : s ≠ k) :
    dbGet (dbInsert db k v) s = dbGet db s := by
  induction db with
  | nil => simp [dbInsert, dbGet, h]
  | cons e rest ih =>
    obtain ⟨k', v'⟩ := e
    by_cases h1 : k < k'
    · simp [dbInsert, dbGet, h1, h]
    · by_cases h2 : k = k'
      · subst h2
        simp [dbInsert, dbGet, h1, h]
      · by_cases h3 : s = k'
        · simp [dbInsert, dbGet, h1, h2, h3]
        · simp [dbInsert, dbGet, h1, h2, h3, ih]

theorem dbGet_purgeLoop_none (db : DB) (f t s : Nat) (h : dbGet db s = none) :
    dbGet (purgeLoop db f t).1 s = none := by
  induction db with
  | nil => simpa [purgeLoop] using h
  | cons e rest ih =>
    obtain ⟨k, v⟩ := e
    have hs : s ≠ k := by
      intro hc
      simp [dbGet, hc] at h
    have hrest : dbGet rest s = none := by
      simpa [dbGet, hs] using h
    by_cases h1 : k < f
    · simp [purgeLoop, dbGet, h1, hs, ih hrest]
    · by_cases h2 : t < k
      · simpa [purgeLoop, h1, h2, dbGet, hs] using hrest
      · simp [purgeLoop, h1, h2, ih hrest]

/-- `spec.DataVersionPhase0`. -/
def dataVersionPhase0 : Int := 0

/-- `spec.DataVersionAltair`. -/
def dataVersionAltair : Int := 1

/-- `spec.DataVersionBellatrix`. -/
def dataVersionBellatrix : Int := 2

/-- `spec.VersionedSignedBeaconBlock`: a version tag plus one optional
per-version block pointer.  The per-version block types `P`, `A`, `B` are
parameters of the model (they live in the `go-eth2-client` library). -/
structure VersionedBlock (P A B : Type) where
  version : Int
  phase0 : Option P
  altair : Option A
  bellatrix : Option B

/-- `BlockWithRoot` from `store.go`: a 32-byte block root (modelled as a
byte list) plus the embedded versioned block. -/
structure BlockWithRoot (P A B : Type) where
  blockRoot : List Nat
  block : VersionedBlock P A B

/-- The external serialisation collaborators of `store.go`: the snappy codec
(`klauspost/compress/snappy`) and the per-version SSZ marshal/unmarshal
routines (`go-eth2-client`).  `snappy.Decode` and `UnmarshalSSZ` are fallible;
`MarshalSSZ` returns an error, modelled by `Option`. -/
structure Codec (P A B : Type) where
  snappyEncode : List Nat → List Nat
  snappyDecode : List Nat → Option (List Nat)
  marshalPhase0 : P → Option (List Nat)
  unmarshalPhase0 : List Nat → Option P
  marshalAltair : A → Option (List Nat)
  unmarshalAltair : List Nat → Option A
  marshalBellatrix : B → Option (List Nat)
  unmarshalBellatrix : List Nat → Option B

/-- The library contracts the round-trip theorems rely on: snappy decoding
inverts encoding, SSZ marshalling always succeeds, and unmarshalling inverts
marshalling. -/
def codecRoundtrip {P A B : Type} (c : Codec P A B) : Prop :=
  (∀ x, c.snappyDecode (c.snappyEncode x) = some x) ∧
  (∀ p, (c.marshalPhase0 p).isSome) ∧
  (∀ a, (c.marshalAltair a).isSome) ∧
  (∀ b, (c.marshalBellatrix b).isSome) ∧
  (∀ p bs, c.marshalPhase0 p = some bs → c.unmarshalPhase0 bs = some p) ∧
  (∀ a bs, c.marshalAltair a = some bs → c.unmarshalAltair bs = some a) ∧
  (∀ b bs, c.marshalBellatrix b = some bs → c.unmarshalBellatrix bs = some b)

/-- The `switch block.Version` in `SetBlock` producing the raw SSZ bytes.
A version outside the three supported cases leaves the Go byte slice nil
(encoded as `some []`); a marshal failure (or a nil per-version pointer,
which would crash the Go program) is `none` and aborts the transaction. -/
def marshalBlock {P A B : Type} (c : Codec P A B) (b : VersionedBlock P A B) :
    Option (List Nat) :=
  if b.version = dataVersionPhase0 then b.phase0.bind c.marshalPhase0
  else if b.version = dataVersionAltair then b.altair.bind c.marshalAltair
  else if b.version = dataVersionBellatrix then b.bellatrix.bind c.marshalBellatrix
  else some []

/-- `Store.SetBlock`: build the value as `versionBytes ++ root ++ blockBytes`
(the root bytes are appended even for a nil block, as zeroes) and set it at
the record key.  `none` models the transaction returning an error. -/
def setBlock {P A B : Type} (c : Codec P A B) (db : DB) (slot : Nat)
    (block : Option (BlockWithRoot P A B)) : Option DB :=
  let versionBytes : List Nat :=
    match block with
    | none => beBytes 8 maxIntU
    | some b => beBytes 8 (uint64OfInt b.block.version)
  let root : List Nat :=
    match block with
    | none => List.replicate 32 0
    | some b => b.blockRoot
  let blockBytes : Option (List Nat) :=
    match block with
    | none => some []
    | some b => (marshalBlock c b.block).map c.snappyEncode
  match blockBytes with
  | none => none
  | some payload => some (dbInsert db slot (versionBytes ++ root ++ payload))

/-- `Store.Filled`: existence of the record key. -/
def filled (db : DB) (slot : Nat) : Bool := (dbGet db slot).isSome

/-- The error outcomes of `Store.Block`: the badger `ErrKeyNotFound`, a
snappy decode error, or an SSZ unmarshal error. -/
inductive GetErr where
  | keyNotFound
  | snappyCorrupt
  | sszDecode
deriving DecidableEq

/-- `Store.Block`: read the value at the record key, decode the version tag,
return the confirmed-empty result (`none`) on the sentinel, otherwise copy
the root from bytes 8..40, snappy-decode the rest and unmarshal it into the
per-version block slot named by the version tag. -/
def blockGet {P A B : Type} (c : Codec P A B) (db : DB) (slot : Nat) :
    Except GetErr (Option (BlockWithRoot P A B)) :=
  match dbGet db slot with
  | none => .error .keyNotFound
  | some val =>
    let version := intOfUint64 (beUint (val.take 8))
    if version = maxIntI then .ok none
    else
      let root := (val.drop 8).take 32
      match c.snappyDecode (val.drop 40) with
      | none => .error .snappyCorrupt
      | some raw =>
        if version = dataVersionPhase0 then
          match c.unmarshalPhase0 raw with
          | none => .error .sszDecode
          | some p => .ok (some ⟨root, ⟨version, some p, none, none⟩⟩)
        else if version = dataVersionAltair then
          match c.unmarshalAltair raw with
          | none => .error .sszDecode
          | some a => .ok (some ⟨root, ⟨version, none, some a, none⟩⟩)
        else if version = dataVersionBellatrix then
          match c.unmarshalBellatrix raw with
          | none => .error .sszDecode
          | some bb => .ok (some ⟨root, ⟨version, none, none, some bb⟩⟩)
        else .ok (some ⟨root, ⟨version, none, none, none⟩⟩)

/-- `Store.Count`: iterate over every slot record, counting every key and,
reading only the version tag, the keys whose version is not the sentinel. -/
def storeCount (db : DB) : Nat × Nat :=
  db.foldl
    (fun acc e => (acc.1 + 1, if readVersion e.2 = maxIntI then acc.2 else acc.2 + 1))
    (0, 0)

/-- A record is well-formed when its root has the 32 bytes of `phase0.Root`
and exactly the per-version pointer named by its version tag is set. -/
def wellFormed {P A B : Type} (b : BlockWithRoot P A B) : Bool :=
  b.blockRoot.length == 32 &&
  ((b.block.version == dataVersionPhase0 && b.block.phase0.isSome &&
      b.block.altair.isNone && b.block.bellatrix.isNone) ||
   (b.block.version == dataVersionAltair && b.block.phase0.isNone &&
      b.block.altair.isSome && b.block.bellatrix.isNone) ||
   (b.block.version == dataVersionBellatrix && b.block.phase0.isNone &&
      b.block.altair.isNone && b.block.bellatrix.isSome))

/-- Well-formedness for the `Option` argument of `SetBlock` (`none` is the
confirmed-empty record and is always well-formed). -/
def wellFormedOpt {P A B : Type} : Option (BlockWithRoot P A B) → Bool
  | none => true
  | some b => wellFormed b

/-- The store operations a client can perform, for reasoning about
operation traces. -/
inductive StoreOp (P A B : Type) where
  | setOp (slot : Nat) (block : Option (BlockWithRoot P A B))
  | purgeOp (f t : Nat)

/-- Apply one operation; a failing `SetBlock` aborts its transaction and
leaves the store unchanged. -/
def applyOp {P A B : Type} (c : Codec P A B) (db : DB) : StoreOp P A B → DB
  | .setOp s b => (setBlock c db s b).getD db
  | .purgeOp f t => (purgeLoop db f t).1

/-- Apply a trace of operations to a store. -/
def applyOps {P A B : Type} (c : Codec P A B) (db : DB) (ops : List (StoreOp P A B)) : DB :=
  ops.foldl (applyOp c) db

/-- The known missing-block indicator strings matched against upstream error
messages in the scrape worker (`main.go`). -/
def missingBlockIndicators : List (List Char) :=
  ["Could not get block from block ID: rpc error: code = NotFound".toList,
   "rpc error: code = NotFound desc = Could not find requested block: signed beacon block can".toList
     ++ [Char.ofNat 39] ++ "t be nil".toList,
   "Could not reconstruct full execution payload to create signed beacon block: block hash field in execution header".toList]

/-- `strings.Contains(hay, sub)`: some suffix of `hay` starts with `sub`. -/
def containsStr (hay sub : List Char) : Bool :=
  if sub.isPrefixOf hay then true
  else
    match hay with
    | [] => false
    | _ :: rest => containsStr rest sub

/-- The worker's classification loop: scan the indicator list, break on the
first indicator contained in the error message. -/
def isMissingBlockErr (msg : List Char) : Bool :=
  missingBlockIndicators.any (fun s => containsStr msg s)

/-- One worker job from `scrape`: on a fetched block, persist it; on an
upstream error, either persist the confirmed-empty record (when the message
matches a missing-block indicator) or publish a fatal signal and write
nothing; a `SetBlock` failure also publishes a fatal signal.  Returns the
store after the job and whether a fatal signal was sent. -/
def workerStep {P A B : Type} (c : Codec P A B) (db : DB) (slot : Nat)
    (res : Except (List Char) (BlockWithRoot P A B)) : DB × Bool :=
  match res with
  | .ok b =>
    match setBlock c db slot (some b) with
    | some db' => (db', false)
    | none => (db, true)
  | .error e =>
    if isMissingBlockErr e then
      match setBlock c db slot none with
      | some db' => (db', false)
      | none => (db, true)
    else (db, true)

/-- Two's-complement wrap into the int64 range, as Go int64 arithmetic
overflows. -/
def wrapInt64 (i : Int) : Int := (i + 2 ^ 63) % 2 ^ 64 - 2 ^ 63

/-- The lag deadline computed by `scrape`:
`genesisTime.Add(secondsPerSlot * time.Second * time.Duration(slot+8))`.
`time.Duration(slot+8)` reads the wrapped uint64 sum as an int64, the
multiplication by `secondsPerSlot * time.Second` (12·10⁹ nanoseconds) wraps
at int64 overflow, and the wrapped nanosecond duration is added to the
genesis instant (wall-clock instants are modelled as integer nanoseconds). -/
def lagDeadline (genesis : Int) (slot : Nat) : Int :=
  genesis + wrapInt64 ((secondsPerSlot : Int) * 10 ^ 9 * intOfUint64 ((slot + 8) % 2 ^ 64))

/-- The scheduling loop of `scrape`, driven by a step budget: starting from
`slot` at wall-clock instant `now` (nanoseconds), skip filled slots;
otherwise wait until `lagDeadline` (time only moves forward; a deadline in
the past means no wait) and dispatch the slot into the job queue at that
moment.  Slot arithmetic wraps at `2^64` as `phase0.Slot` does.  Returns
the dispatched `(slot, dispatch instant)` events. -/
def scheduleLoop (isFilled : Nat → Bool) (genesis : Int) :
    Nat → Nat → Int → List (Nat × Int)
  | 0, _, _ => []
  | fuel + 1, slot, now =>
    if isFilled slot then scheduleLoop isFilled genesis fuel ((slot + 1) % 2 ^ 64) now
    else
      (slot, max now (lagDeadline genesis slot)) ::
        scheduleLoop isFilled genesis fuel ((slot + 1) % 2 ^ 64)
          (max now (lagDeadline genesis slot))

/-- One ingestion cycle of `scrape` after the start slot has been computed:
the initial `Purge(0, startSlot)` followed by the scheduling loop. -/
def scrapeCycle (db : DB) (isFilled : Nat → Bool) (genesis : Int)
    (startSlot : Nat) (now : Int) (fuel : Nat) : (DB × Nat) × List (Nat × Int) :=
  (purgeLoop db 0 startSlot, scheduleLoop isFilled genesis fuel startSlot now)

/-- A concrete `Codec` instantiation identifying each per-version block type
with its SSZ byte encoding; used by the witnesses. -/
def listCodec : Codec (List Nat) (List Nat) (List Nat) where
  snappyEncode := id
  snappyDecode := some
  marshalPhase0 := some
  unmarshalPhase0 := some
  marshalAltair := some
  unmarshalAltair := some
  marshalBellatrix := some
  unmarshalBellatrix := some

theorem listCodec_roundtrip : codecRoundtrip listCodec := by
  refine ⟨fun x => rfl, fun p => rfl, fun a => rfl, fun b => rfl, ?_, ?_, ?_⟩ <;>
    · intro x bs h
      simp only [listCodec, Option.some_inj] at h
      simp [listCodec, h]

theorem value_take8 (n : Nat) (root payload : List Nat) :
    (beBytes 8 n ++ root ++ payload).take 8 = beBytes 8 n := by
  rw [List.append_assoc]
  exact List.take_left' (beBytes_length 8 n)

theorem value_drop8 (n : Nat) (root payload : List Nat) :
    (beBytes 8 n ++ root ++ payload).drop 8 = root ++ payload := by
  rw [List.append_assoc]
  exact List.drop_left' (beBytes_length 8 n)

theorem value_root (n : Nat) (root payload : List Nat) (hroot : root.length = 32) :
    ((beBytes 8 n ++ root ++ payload).drop 8).take 32 = root := by
  rw [value_drop8]
  exact List.take_left' hroot

theorem value_drop40 (n : Nat) (root payload : List Nat) (hroot : root.length = 32) :
    (beBytes 8 n ++ root ++ payload).drop 40 = payload := by
  have h40 : (40 : Nat) = 8 + 32 := by norm_num
  rw [h40, ← List.drop_drop, value_drop8]
  exact List.drop_left' hroot

theorem readVersion_value (n : Nat) (root payload : List Nat) (h : n < 2 ^ 64) :
    readVersion (beBytes 8 n ++ root ++ payload) = intOfUint64 n := by
  rw [readVersion, value_take8, beUint_beBytes8 n h]

/-- **C9** — Key-order preservation: for every pair of slots `a < b` (as
unsigned 64-bit integers), the encoded record key of `a` (namespace byte
then 8-byte big-endian slot index) is strictly lexicographically smaller
than the encoded record key of `b`, so numeric slot order equals
lexicographic key order. -/
theorem key_order_preserved (a b : Nat) (ha : a < 2 ^ 64) (hb : b < 2 ^ 64)
    (hab : a < b) : lexLt (recordKey a) (recordKey b) = true := by
  have h256 : (256 : Nat) ^ 8 = 2 ^ 64 := by norm_num
  have h := lexLt_beBytes 8 a b (by rw [h256]; exact ha) (by rw [h256]; exact hb) hab
  have hcons : ∀ (x : Nat) (as bs : List Nat), lexLt (x :: as) (x :: bs) = lexLt as bs := by
    intro x as bs
    simp [lexLt, Nat.lt_irrefl]
  rw [recordKey, recordKey, hcons]
  exact h

theorem key_order_preserved_witness :
    lexLt (recordKey 3) (recordKey 4096) = true :=
  key_order_preserved 3 4096 (by norm_num) (by norm_num) (by norm_num)

/-- **C10** — Empty-range purge: whenever `from > to`, `Purge` deletes no
keys, leaves the store unchanged and returns a deleted count of 0. -/
theorem purge_empty_range (db : DB) (f t : Nat) (h : t < f) :
    purgeLoop db f t = (db, 0) := by
  induction db with
  | nil => rfl
  | cons e rest ih =>
    obtain ⟨k, v⟩ := e
    by_cases h1 : k < f
    · simp [purgeLoop, h1, ih]
    · have h2 : t < k := by omega
      simp [purgeLoop, h1, h2]

theorem purge_empty_range_witness :
    purgeLoop [(2, [0]), (5, [1])] 7 3 = ([(2, [0]), (5, [1])], 0) :=
  purge_empty_range [(2, [0]), (5, [1])] 7 3 (by norm_num)

theorem storeCount_foldl (db : DB) : ∀ s b : Nat,
    db.foldl
      (fun acc e => (acc.1 + 1, if readVersion e.2 = maxIntI then acc.2 else acc.2 + 1))
      (s, b) =
    (s + db.length, b + (db.filter fun e => decide (readVersion e.2 ≠ maxIntI)).length) := by
  induction db with
  | nil => intro s b; simp
  | cons e rest ih =>
    intro s b
    by_cases h : readVersion e.2 = maxIntI
    · simp only [List.foldl_cons, h, if_pos rfl, ih, List.length_cons, List.filter_cons]
      simp [h]
      omega
    · simp only [List.foldl_cons, ih, List.length_cons, List.filter_cons]
      simp [h]
      omega

/-- **C7** — Count correctness: for every store state, `Count` returns
`slots` equal to the total number of filled slot keys and `blocks` equal to
the number of filled slot keys whose stored version tag is not the Empty
sentinel. -/
theorem count_correct (db : DB) :
    storeCount db =
      (db.length, (db.filter fun e => decide (readVersion e.2 ≠ maxIntI)).length) := by
  have h := storeCount_foldl db 0 0
  simpa [storeCount] using h

/-- **C2 counterexample** — the claim says `SetBlock(s, nil)` stores a value
consisting only of the 8-byte sentinel with no root bytes following it; in
fact `SetBlock` appends the zero-valued 32-byte root even for a nil block,
so at slot 0 on an empty store the stored value is 40 bytes long and its
suffix after the sentinel is 32 zero bytes. -/
theorem empty_value_has_root_cex :
    setBlock listCodec [] 0 none
        = some [(0, beBytes 8 maxIntU ++ List.replicate 32 0 ++ [])] ∧
    (beBytes 8 maxIntU ++ List.replicate 32 0 ++ ([] : List Nat)).length = 40 ∧
    (beBytes 8 maxIntU ++ List.replicate 32 0 ++ ([] : List Nat)).drop 8
        = List.replicate 32 0 ∧
    (beBytes 8 maxIntU ++ List.replicate 32 0 ++ ([] : List Nat)) ≠ beBytes 8 maxIntU := by
  refine ⟨rfl, by decide, by decide, by decide⟩

/-- **C2 (amended)** — Confirmed-empty encoding: `SetBlock(s, nil)` stores a
value of the 8-byte sentinel version followed by 32 zero root bytes and no
payload; in general the stored layout is
`[8-byte version-or-sentinel][32-byte root, zero-filled when the version is
the sentinel][compressed payload, absent when the version is the sentinel]`. -/
theorem value_layout (P A B : Type) (c : Codec P A B) (db : DB) (s : Nat) :
    (∃ db', setBlock c db s none = some db' ∧
       ∃ val, dbGet db' s = some val ∧ val.length = 40 ∧
         val.take 8 = beBytes 8 maxIntU ∧ val.drop 8 = List.replicate 32 0) ∧
    (∀ (b : BlockWithRoot P A B) (raw : List Nat), b.blockRoot.length = 32 →
       marshalBlock c b.block = some raw →
       ∃ db', setBlock c db s (some b) = some db' ∧
         ∃ val, dbGet db' s = some val ∧
           val.take 8 = beBytes 8 (uint64OfInt b.block.version) ∧
           (val.drop 8).take 32 = b.blockRoot ∧
           val.drop 40 = c.snappyEncode raw) := by
  constructor
  · refine ⟨_, rfl, _, dbGet_dbInsert_self .., ?_, ?_, ?_⟩
    · have h1 := beBytes_length 8 maxIntU
      simp [h1]
    · exact value_take8 maxIntU (List.replicate 32 0) []
    · have h := value_drop8 maxIntU (List.replicate 32 0) []
      simpa using h
  · intro b raw h32 hm
    have hset : setBlock c db s (some b)
        = some (dbInsert db s
            (beBytes 8 (uint64OfInt b.block.version) ++ b.blockRoot ++ c.snappyEncode raw)) := by
      simp [setBlock, hm]
    exact ⟨_, hset, _, dbGet_dbInsert_self .., value_take8 _ b.blockRoot _,
      value_root _ b.blockRoot _ h32, value_drop40 _ b.blockRoot _ h32⟩

/-- A concrete well-formed phase0 record used by witnesses. -/
def sampleBlock : BlockWithRoot (List Nat) (List Nat) (List Nat) :=
  ⟨List.replicate 32 7, ⟨0, some [9, 9], none, none⟩⟩

theorem value_layout_witness :
    sampleBlock.blockRoot.length = 32 ∧
    (∃ db', setBlock listCodec [] 5 (some sampleBlock) = some db' ∧
       ∃ val, dbGet db' 5 = some val ∧
         val.take 8 = beBytes 8 (uint64OfInt sampleBlock.block.version) ∧
         (val.drop 8).take 32 = sampleBlock.blockRoot ∧
         val.drop 40 = listCodec.snappyEncode [9, 9]) :=
  ⟨by decide,
   (value_layout (List Nat) (List Nat) (List Nat) listCodec [] 5).2 sampleBlock [9, 9]
     (by decide) rfl⟩

theorem setBlock_eq_insert {P A B : Type} (c : Codec P A B) (db : DB) (k : Nat)
    (b : Option (BlockWithRoot P A B)) (db' : DB) (h : setBlock c db k b = some db') :
    ∃ v, db' = dbInsert db k v := by
  cases b with
  | none =>
    simp only [setBlock, Option.some_inj] at h
    exact ⟨_, h.symm⟩
  | some bb =>
    cases hm : marshalBlock c bb.block with
    | none => simp [setBlock, hm] at h
    | some raw =>
      simp only [setBlock, hm, Option.map_some', Option.some_inj] at h
      exact ⟨_, h.symm⟩

/-- **C6** — Filled flag: `Filled(s)` is false on a store on which no
`SetBlock(s, …)` has occurred (whatever other operations ran), and true
immediately after any successful `SetBlock(s, r)`, whether `r` is nil or a
block. -/
theorem filled_flag {P A B : Type} (c : Codec P A B) (s : Nat) :
    (∀ ops : List (StoreOp P A B), (∀ b, StoreOp.setOp s b ∉ ops) →
       filled (applyOps c [] ops) s = false) ∧
    (∀ (db : DB) (r : Option (BlockWithRoot P A B)) (db' : DB),
       setBlock c db s r = some db' → filled db' s = true) := by
  constructor
  · have key : ∀ (ops : List (StoreOp P A B)) (db : DB), dbGet db s = none →
        (∀ b, StoreOp.setOp s b ∉ ops) → dbGet (applyOps c db ops) s = none := by
      intro ops
      induction ops with
      | nil => intro db h _; simpa [applyOps] using h
      | cons op rest ih =>
        intro db h hnot
        have hstep : dbGet (applyOp c db op) s = none := by
          cases op with
          | setOp s' b =>
            have hne : s ≠ s' := by
              intro hc
              subst hc
              exact (hnot b) (List.mem_cons_self ..)
            cases hsb : setBlock c db s' b with
            | none => simpa [applyOp, hsb] using h
            | some db2 =>
              obtain ⟨v, hv⟩ := setBlock_eq_insert c db s' b db2 hsb
              rw [applyOp, hsb, Option.getD_some, hv, dbGet_dbInsert_ne db s' v s hne]
              exact h
          | purgeOp f t => exact dbGet_purgeLoop_none db f t s h
        have hrest : ∀ b, StoreOp.setOp s b ∉ rest := fun b hmem =>
          (hnot b) (List.mem_cons_of_mem _ hmem)
        exact ih (applyOp c db op) hstep hrest
    intro ops hnot
    have h := key ops [] rfl hnot
    simp [filled, h]
  · intro db r db' h
    obtain ⟨v, hv⟩ := setBlock_eq_insert c db s r db' h
    rw [hv]
    simp [filled, dbGet_dbInsert_self]

theorem filled_flag_witness :
    filled (applyOps listCodec []
      [StoreOp.setOp 1 none, StoreOp.purgeOp 0 10]) 2 = false ∧
    filled ((setBlock listCodec [] 2 none).getD []) 2 = true :=
  ⟨(filled_flag listCodec 2).1 [StoreOp.setOp 1 none, StoreOp.purgeOp 0 10]
      (by intro b hb; simp [List.mem_cons] at hb),
   (filled_flag listCodec 2).2 [] none ((setBlock listCodec [] 2 none).getD []) rfl⟩

theorem blockGet_some_ne_notFound {P A B : Type} (c : Codec P A B) (db : DB)
    (s : Nat) (val : List Nat) (h : dbGet db s = some val) :
    blockGet c db s ≠ .error GetErr.keyNotFound := by
  intro hbg
  simp only [blockGet, h] at hbg
  split at hbg
  · exact Except.noConfusion hbg
  · split at hbg
    · simp only [Except.error.injEq] at hbg
      exact GetErr.noConfusion hbg
    · split at hbg
      · split at hbg
        · simp only [Except.error.injEq] at hbg
          exact GetErr.noConfusion hbg
        · exact Except.noConfusion hbg
      · split at hbg
        · split at hbg
          · simp only [Except.error.injEq] at hbg
            exact GetErr.noConfusion hbg
          · exact Except.noConfusion hbg
        · split at hbg
          · split at hbg
            · simp only [Except.error.injEq] at hbg
              exact GetErr.noConfusion hbg
            · exact Except.noConfusion hbg
          · exact Except.noConfusion hbg

/-- **C5** — NotFound versus confirmed-empty: `Block(s)` fails with the
key-not-found error exactly when the slot key is absent; when the key is
present with the sentinel version tag, `Block(s)` succeeds with the
confirmed-empty result (`none`, no payload), so the two outcomes are never
conflated. -/
theorem notfound_vs_empty {P A B : Type} (c : Codec P A B) :
    (∀ (db : DB) (s : Nat),
       blockGet c db s = .error GetErr.keyNotFound ↔ dbGet db s = none) ∧
    (∀ (db : DB) (s : Nat) (val : List Nat), dbGet db s = some val →
       val.take 8 = beBytes 8 maxIntU → blockGet c db s = .ok none) := by
  constructor
  · intro db s
    constructor
    · intro h
      cases hget : dbGet db s with
      | none => rfl
      | some val => exact absurd h (blockGet_some_ne_notFound c db s val hget)
    · intro h
      simp [blockGet, h]
  · intro db s val h hv
    have hver : intOfUint64 (beUint (val.take 8)) = maxIntI := by
      rw [hv, beUint_beBytes8 maxIntU (by norm_num [maxIntU])]
      rw [intOfUint64_small maxIntU (by norm_num [maxIntU])]
      norm_num [maxIntU, maxIntI]
    simp [blockGet, h, hver]

theorem notfound_vs_empty_witness :
    (blockGet listCodec ([] : DB) 0 = .error GetErr.keyNotFound ↔ dbGet [] 0 = none) ∧
    blockGet listCodec [(1, beBytes 8 maxIntU ++ List.replicate 32 0 ++ [])] 1 = .ok none :=
  ⟨(notfound_vs_empty listCodec).1 [] 0,
   (notfound_vs_empty listCodec).2 [(1, beBytes 8 maxIntU ++ List.replicate 32 0 ++ [])] 1
     (beBytes 8 maxIntU ++ List.replicate 32 0 ++ []) rfl
     (value_take8 maxIntU (List.replicate 32 0) [])⟩

theorem containsStr_iff (hay sub : List Char) :
    containsStr hay sub = true ↔ sub <:+: hay := by
  induction hay with
  | nil =>
    constructor
    · intro h
      rw [containsStr] at h
      split at h
      · next hp => exact (List.isPrefixOf_iff_prefix.mp hp).isInfix
      · exact absurd h (by simp)
    · intro h
      have hnil : sub = [] := List.infix_nil.mp h
      subst hnil
      rfl
  | cons ch rest ih =>
    constructor
    · intro h
      rw [containsStr] at h
      split at h
      · next hp => exact (List.isPrefixOf_iff_prefix.mp hp).isInfix
      · exact List.infix_cons_iff.mpr (Or.inr (ih.mp h))
    · intro h
      rw [containsStr]
      split
      · rfl
      · next hp =>
        rcases List.infix_cons_iff.mp h with hpre | hinf
        · exact absurd (List.isPrefixOf_iff_prefix.mpr hpre) hp
        · exact ih.mpr hinf

/-- **C4** — Missing-block classification: in the worker loop, an upstream
error whose message contains one of the known missing-block indicator
strings leads to a confirmed-empty write (`SetBlock` with nil) and no fatal
signal; any other upstream error leads to a fatal signal on the error
channel and no write for that slot. -/
theorem missing_block_classification {P A B : Type} (c : Codec P A B) (db : DB)
    (slot : Nat) (e : List Char) :
    ((∃ s ∈ missingBlockIndicators, s <:+: e) →
       workerStep c db slot (.error e)
         = (dbInsert db slot (beBytes 8 maxIntU ++ List.replicate 32 0 ++ []), false)) ∧
    ((∀ s ∈ missingBlockIndicators, ¬ s <:+: e) →
       workerStep c db slot (.error e) = (db, true)) := by
  have hiff : isMissingBlockErr e = true ↔ ∃ s ∈ missingBlockIndicators, s <:+: e := by
    rw [isMissingBlockErr, List.any_eq_true]
    constructor
    · rintro ⟨s, hs, hc⟩
      exact ⟨s, hs, (containsStr_iff e s).mp hc⟩
    · rintro ⟨s, hs, hc⟩
      exact ⟨s, hs, (containsStr_iff e s).mpr hc⟩
  constructor
  · intro h
    have hm : isMissingBlockErr e = true := hiff.mpr h
    simp [workerStep, hm, setBlock]
  · intro h
    have hm : isMissingBlockErr e = false := by
      rw [Bool.eq_false_iff]
      intro hc
      obtain ⟨s, hs, hinf⟩ := hiff.mp hc
      exact h s hs hinf
    simp [workerStep, hm]

/-- **C1** — Round-trip: for every slot `s` and every record `r` of a
supported version (Phase0, Altair, Bellatrix) or the confirmed-empty record
(nil), `SetBlock(s, r)` followed by `Block(s)` returns `r` (for nil, `Block`
returns the confirmed-empty result), assuming the snappy/SSZ library
round-trip contracts. -/
theorem put_get_roundtrip {P A B : Type} (c : Codec P A B) (hc : codecRoundtrip c)
    (db : DB) (s : Nat) (r : Option (BlockWithRoot P A B)) (hr : wellFormedOpt r = true) :
    ∃ db', setBlock c db s r = some db' ∧ blockGet c db' s = .ok r := by
  obtain ⟨hsnappy, hmp, hma, hmb, hup, hua, hub⟩ := hc
  cases r with
  | none =>
    refine ⟨_, rfl, ?_⟩
    have hget := dbGet_dbInsert_self db s (beBytes 8 maxIntU ++ List.replicate 32 0 ++ [])
    have hver : intOfUint64 (beUint
        ((beBytes 8 maxIntU ++ List.replicate 32 0 ++ ([] : List Nat)).take 8)) = maxIntI := by
      rw [value_take8, beUint_beBytes8 maxIntU (by norm_num [maxIntU]),
        intOfUint64_small maxIntU (by norm_num [maxIntU])]
      norm_num [maxIntU, maxIntI]
    simp only [blockGet, hget, hver]
    simp
  | some b =>
    obtain ⟨root, blk⟩ := b
    obtain ⟨ver, p0, a0, b0⟩ := blk
    simp only [wellFormedOpt, wellFormed, Bool.and_eq_true, Bool.or_eq_true, beq_iff_eq,
      Option.isSome_iff_exists, Option.isNone_iff_eq_none] at hr
    obtain ⟨h32, hcase⟩ := hr
    rcases hcase with (⟨⟨⟨hv, p, hpeq⟩, ha⟩, hb⟩ | ⟨⟨⟨hv, hp⟩, a, haeq⟩, hb⟩) |
      ⟨⟨⟨hv, hp⟩, ha⟩, bb, hbeq⟩
    · subst hv hpeq ha hb
      obtain ⟨raw, hraw⟩ := Option.isSome_iff_exists.mp (hmp p)
      have hmarshal : marshalBlock c ⟨dataVersionPhase0, some p, none, none⟩ = some raw := by
        simp [marshalBlock, hraw]
      have hset : setBlock c db s (some ⟨root, ⟨dataVersionPhase0, some p, none, none⟩⟩)
          = some (dbInsert db s
              (beBytes 8 (uint64OfInt dataVersionPhase0) ++ root ++ c.snappyEncode raw)) := by
        simp [setBlock, hmarshal]
      refine ⟨_, hset, ?_⟩
      have hget := dbGet_dbInsert_self db s
        (beBytes 8 (uint64OfInt dataVersionPhase0) ++ root ++ c.snappyEncode raw)
      have hver : intOfUint64 (beUint
          ((beBytes 8 (uint64OfInt dataVersionPhase0) ++ root ++ c.snappyEncode raw).take 8))
          = dataVersionPhase0 := by
        rw [value_take8]
        rfl
      have hne : ¬ (dataVersionPhase0 = maxIntI) := by decide
      have hdrop := value_drop40 (uint64OfInt dataVersionPhase0) root (c.snappyEncode raw) h32
      have hroot := value_root (uint64OfInt dataVersionPhase0) root (c.snappyEncode raw) h32
      have hdec := hsnappy raw
      have hun := hup p raw hraw
      simp only [blockGet, hget, hver, hdrop, hroot, hdec, hun]
      rw [if_neg hne]
      simp
    · subst hv haeq hp hb
      obtain ⟨raw, hraw⟩ := Option.isSome_iff_exists.mp (hma a)
      have hmarshal : marshalBlock c ⟨dataVersionAltair, none, some a, none⟩ = some raw := by
        simp [marshalBlock, dataVersionAltair, dataVersionPhase0, hraw]
      have hset : setBlock c db s (some ⟨root, ⟨dataVersionAltair, none, some a, none⟩⟩)
          = some (dbInsert db s
              (beBytes 8 (uint64OfInt dataVersionAltair) ++ root ++ c.snappyEncode raw)) := by
        simp [setBlock, hmarshal]
      refine ⟨_, hset, ?_⟩
      have hget := dbGet_dbInsert_self db s
        (beBytes 8 (uint64OfInt dataVersionAltair) ++ root ++ c.snappyEncode raw)
      have hver : intOfUint64 (beUint
          ((beBytes 8 (uint64OfInt dataVersionAltair) ++ root ++ c.snappyEncode raw).take 8))
          = dataVersionAltair := by
        rw [value_take8]
        rfl
      have hne : ¬ (dataVersionAltair = maxIntI) := by decide
      have hne0 : ¬ (dataVersionAltair = dataVersionPhase0) := by decide
      have hdrop := value_drop40 (uint64OfInt dataVersionAltair) root (c.snappyEncode raw) h32
      have hroot := value_root (uint64OfInt dataVersionAltair) root (c.snappyEncode raw) h32
      have hdec := hsnappy raw
      have hun := hua a raw hraw
      simp only [blockGet, hget, hver, hdrop, hroot, hdec, hun]
      rw [if_neg hne, if_neg hne0]
      simp
    · subst hv hbeq hp ha
      obtain ⟨raw, hraw⟩ := Option.isSome_iff_exists.mp (hmb bb)
      have hmarshal : marshalBlock c ⟨dataVersionBellatrix, none, none, some bb⟩ = some raw := by
        simp [marshalBlock, dataVersionBellatrix, dataVersionAltair, dataVersionPhase0, hraw]
      have hset : setBlock c db s (some ⟨root, ⟨dataVersionBellatrix, none, none, some bb⟩⟩)
          = some (dbInsert db s
              (beBytes 8 (uint64OfInt dataVersionBellatrix) ++ root ++ c.snappyEncode raw)) := by
        simp [setBlock, hmarshal]
      refine ⟨_, hset, ?_⟩
      have hget := dbGet_dbInsert_self db s
        (beBytes 8 (uint64OfInt dataVersionBellatrix) ++ root ++ c.snappyEncode raw)
      have hver : intOfUint64 (beUint
          ((beBytes 8 (uint64OfInt dataVersionBellatrix) ++ root ++ c.snappyEncode raw).take 8))
          = dataVersionBellatrix := by
        rw [value_take8]
        rfl
      have hne : ¬ (dataVersionBellatrix = maxIntI) := by decide
      have hne0 : ¬ (dataVersionBellatrix = dataVersionPhase0) := by decide
      have hne1 : ¬ (dataVersionBellatrix = dataVersionAltair) := by decide
      have hdrop := value_drop40 (uint64OfInt dataVersionBellatrix) root (c.snappyEncode raw) h32
      have hroot := value_root (uint64OfInt dataVersionBellatrix) root (c.snappyEncode raw) h32
      have hdec := hsnappy raw
      have hun := hub bb raw hraw
      simp only [blockGet, hget, hver, hdrop, hroot, hdec, hun]
      rw [if_neg hne, if_neg hne0, if_neg hne1]
      simp

theorem put_get_roundtrip_witness :
    codecRoundtrip listCodec ∧ wellFormedOpt (some sampleBlock) = true ∧
    ∃ db', setBlock listCodec [] 7 (some sampleBlock) = some db' ∧
      blockGet listCodec db' 7 = .ok (some sampleBlock) :=
  ⟨listCodec_roundtrip, by decide,
   put_get_roundtrip listCodec listCodec_roundtrip [] 7 (some sampleBlock) (by decide)⟩

theorem missing_block_classification_witness :
    workerStep listCodec [] 5
        (.error ("Could not get block from block ID: rpc error: code = NotFound".toList))
      = (dbInsert [] 5 (beBytes 8 maxIntU ++ List.replicate 32 0 ++ []), false) ∧
    workerStep listCodec [] 5 (.error ("boom".toList)) = ([], true) :=
  ⟨(missing_block_classification listCodec [] 5 _).1
      ⟨"Could not get block from block ID: rpc error: code = NotFound".toList,
        List.mem_cons_self .., List.infix_rfl⟩,
   (missing_block_classification listCodec [] 5 _).2
      (by decide)⟩

/-- The value `SetBlock` stores for a nil (confirmed-empty) record. -/
def nilRecordValue : List Nat := beBytes 8 maxIntU ++ List.replicate 32 0 ++ []

/-- The store built by the `TestPurge` scenario: fold `SetBlock(s, nil)`
over an insertion-order list `l`, starting from an empty store. -/
def scenarioDb {P A B : Type} (c : Codec P A B) (l : List Nat) : DB :=
  l.foldl (fun d s => (setBlock c d s none).getD d) []

theorem scenarioDb_eq_insertFold {P A B : Type} (c : Codec P A B) (l : List Nat) :
    scenarioDb c l = l.foldl (fun d s => dbInsert d s nilRecordValue) [] := by
  unfold scenarioDb
  have hfun : (fun (d : DB) (s : Nat) => (setBlock c d s none).getD d)
      = fun d s => dbInsert d s nilRecordValue := by
    funext d s
    rfl
  rw [hfun]

set_option maxRecDepth 4096 in
theorem permFold_canon : ∀ l ∈ List.permutations' [0, 1, 2, 3, 4],
    l.foldl (fun d s => dbInsert d s nilRecordValue) []
      = [(0, nilRecordValue), (1, nilRecordValue), (2, nilRecordValue),
         (3, nilRecordValue), (4, nilRecordValue)] := by decide

theorem purgeLoop_filter (db : DB) (f t : Nat) (h : dbSorted db) :
    purgeLoop db f t
      = (db.filter (fun e => decide (e.1 < f) || decide (t < e.1)),
         (db.filter (fun e => decide (f ≤ e.1) && decide (e.1 ≤ t))).length) := by
  induction db with
  | nil => rfl
  | cons e rest ih =>
    obtain ⟨k, v⟩ := e
    have hparts := List.pairwise_cons.mp h
    have hall : ∀ x ∈ rest, k < x.1 := fun x hx => hparts.1 x hx
    have hsorted : dbSorted rest := hparts.2
    by_cases h1 : k < f
    · have hnf : ¬ (f ≤ k) := by omega
      simp [purgeLoop, h1, ih hsorted, List.filter_cons, hnf]
    · by_cases h2 : t < k
      · have hkeep : rest.filter (fun e => decide (e.1 < f) || decide (t < e.1)) = rest :=
          List.filter_eq_self.mpr (fun x hx => by
            have := hall x hx
            simp
            omega)
        have hnone : rest.filter (fun e => decide (f ≤ e.1) && decide (e.1 ≤ t)) = [] :=
          List.filter_eq_nil_iff.mpr (fun x hx => by
            have := hall x hx
            simp
            omega)
        simp [purgeLoop, h1, h2, List.filter_cons, hkeep, hnone]
      · have hf : f ≤ k := by omega
        have ht : k ≤ t := by omega
        simp [purgeLoop, h1, h2, ih hsorted, List.filter_cons, hf, ht]

/-- **C3** — Purge correctness: on an ordered store, `Purge(a, b)` deletes
exactly the filled slot keys in the inclusive range `[a, b]` (keys below `a`
or above `b` are unchanged) and returns the number of previously-filled keys
in that range; in particular, after filling slots `{0,1,2,3,4}` as
confirmed-empty in any insertion order, `Purge(1, 3)` returns 3, `Block` on
slots 1, 2, 3 then reports key-not-found and `Block` on slots 0 and 4 still
succeeds (with the confirmed-empty result). -/
theorem purge_correct :
    (∀ (db : DB) (f t : Nat), dbSorted db →
       purgeLoop db f t
         = (db.filter (fun e => decide (e.1 < f) || decide (t < e.1)),
            (db.filter (fun e => decide (f ≤ e.1) && decide (e.1 ≤ t))).length)) ∧
    (∀ (P A B : Type) (c : Codec P A B) (l : List Nat), l.Perm [0, 1, 2, 3, 4] →
       (purgeLoop (scenarioDb c l) 1 3).2 = 3 ∧
       blockGet c (purgeLoop (scenarioDb c l) 1 3).1 1 = .error GetErr.keyNotFound ∧
       blockGet c (purgeLoop (scenarioDb c l) 1 3).1 2 = .error GetErr.keyNotFound ∧
       blockGet c (purgeLoop (scenarioDb c l) 1 3).1 3 = .error GetErr.keyNotFound ∧
       blockGet c (purgeLoop (scenarioDb c l) 1 3).1 0 = .ok none ∧
       blockGet c (purgeLoop (scenarioDb c l) 1 3).1 4 = .ok none) := by
  constructor
  · exact purgeLoop_filter
  · intro P A B c l hl
    have hdb : scenarioDb c l
        = [(0, nilRecordValue), (1, nilRecordValue), (2, nilRecordValue),
           (3, nilRecordValue), (4, nilRecordValue)] := by
      rw [scenarioDb_eq_insertFold]
      exact permFold_canon l (List.mem_permutations'.mpr hl)
    rw [hdb]
    exact ⟨rfl, rfl, rfl, rfl, rfl, rfl⟩

theorem purge_correct_witness :
    (dbSorted [(2, [0]), (6, [1])] ∧
     purgeLoop [(2, [0]), (6, [1])] 1 4
       = ([(2, [0]), (6, [1])].filter (fun e => decide (e.1 < 1) || decide (4 < e.1)),
          ([(2, [0]), (6, [1])].filter (fun e => decide (1 ≤ e.1) && decide (e.1 ≤ 4))).length)) ∧
    ([4, 2, 0, 1, 3].Perm [0, 1, 2, 3, 4] ∧
     (purgeLoop (scenarioDb listCodec [4, 2, 0, 1, 3]) 1 3).2 = 3) :=
  ⟨⟨by decide, purge_correct.1 [(2, [0]), (6, [1])] 1 4 (by decide)⟩,
   ⟨by decide,
    (purge_correct.2 (List Nat) (List Nat) (List Nat) listCodec [4, 2, 0, 1, 3]
      (by decide)).1⟩⟩

theorem wrapInt64_eq_self (i : Int) (h1 : -(2 ^ 63) ≤ i) (h2 : i < 2 ^ 63) :
    wrapInt64 i = i := by
  unfold wrapInt64
  have h0 : (0 : Int) ≤ i + 2 ^ 63 := by omega
  have h3 : i + 2 ^ 63 < 2 ^ 64 := by omega
  rw [Int.emod_eq_of_lt h0 h3]
  omega

/-- **C8 counterexample** — the claim asserts that no slot is ever
dispatched before the wall clock reaches
`genesisTime + (slot + 8) * secondsPerSlot`; but for `startSlot = 2^63 - 8`
(reachable when the retention-window subtraction underflows `uint64` on a
young chain) the int64 nanosecond duration `12·10⁹ · (slot+8)` wraps to 0,
so the slot is dispatched at the cycle start instant 0, strictly before the
claimed deadline of `12·10⁹ · 2^63` nanoseconds after genesis. -/
theorem scheduler_lag_overflow_cex :
    (2 ^ 63 - 8, (0 : Int)) ∈ (scrapeCycle [] (fun _ => false) 0 (2 ^ 63 - 8) 0 1).2 ∧
    (0 : Int) < 0 + (secondsPerSlot : Int) * 10 ^ 9 * (((2 ^ 63 - 8 : Nat) : Int) + 8) := by
  constructor
  · decide
  · norm_num [secondsPerSlot]

theorem scheduleLoop_bounds (isFilled : Nat → Bool) (genesis : Int) :
    ∀ (fuel slot : Nat) (now : Int), slot + fuel + 8 ≤ 2 ^ 64 →
      secondsPerSlot * 10 ^ 9 * (slot + fuel + 8) < 2 ^ 63 →
      ∀ p ∈ scheduleLoop isFilled genesis fuel slot now,
        slot ≤ p.1 ∧ genesis + (secondsPerSlot : Int) * 10 ^ 9 * ((p.1 : Int) + 8) ≤ p.2 := by
  intro fuel
  induction fuel with
  | zero =>
    intro slot now h hns p hp
    simp [scheduleLoop] at hp
  | succ fuel ih =>
    intro slot now h hns p hp
    have hs1 : (slot + 1) % 2 ^ 64 = slot + 1 := Nat.mod_eq_of_lt (by omega)
    have hs8 : (slot + 8) % 2 ^ 64 = slot + 8 := Nat.mod_eq_of_lt (by omega)
    have hmul : secondsPerSlot * 10 ^ 9 * (slot + 8) < 2 ^ 63 := by
      have hle : slot + 8 ≤ slot + (fuel + 1) + 8 := by omega
      calc secondsPerSlot * 10 ^ 9 * (slot + 8)
          ≤ secondsPerSlot * 10 ^ 9 * (slot + (fuel + 1) + 8) :=
            Nat.mul_le_mul_left _ hle
        _ < 2 ^ 63 := hns
    have hslot63 : slot + 8 < 2 ^ 63 := by
      have hone : 1 * (slot + 8) ≤ secondsPerSlot * 10 ^ 9 * (slot + 8) :=
        Nat.mul_le_mul_right _ (by norm_num [secondsPerSlot])
      omega
    have hdl : lagDeadline genesis slot
        = genesis + (secondsPerSlot : Int) * 10 ^ 9 * ((slot : Int) + 8) := by
      rw [lagDeadline, hs8, intOfUint64_small _ hslot63]
      rw [wrapInt64_eq_self]
      · push_cast
        ring
      · have : (0 : Int) ≤ (secondsPerSlot : Int) * 10 ^ 9 * ((slot + 8 : Nat) : Int) := by
          positivity
        omega
      · calc (secondsPerSlot : Int) * 10 ^ 9 * ((slot + 8 : Nat) : Int)
            = ((secondsPerSlot * 10 ^ 9 * (slot + 8) : Nat) : Int) := by push_cast; ring
          _ < 2 ^ 63 := by exact_mod_cast hmul
    have hnext : secondsPerSlot * 10 ^ 9 * (slot + 1 + fuel + 8) < 2 ^ 63 := by
      have heq : slot + 1 + fuel + 8 = slot + (fuel + 1) + 8 := by omega
      rw [heq]
      exact hns
    by_cases hf : isFilled slot = true
    · rw [scheduleLoop, if_pos hf, hs1] at hp
      have := ih (slot + 1) now (by omega) hnext p hp
      exact ⟨by omega, this.2⟩
    · rw [scheduleLoop, if_neg hf, hs1] at hp
      rcases List.mem_cons.mp hp with hhead | htail
      · rw [hhead]
        refine ⟨Nat.le_refl slot, ?_⟩
        calc genesis + (secondsPerSlot : Int) * 10 ^ 9 * ((slot : Int) + 8)
            = lagDeadline genesis slot := hdl.symm
          _ ≤ max now (lagDeadline genesis slot) := le_max_right ..
      · have := ih (slot + 1) _ (by omega) hnext p htail
        exact ⟨by omega, this.2⟩

/-- **C8 (amended)** — Scheduler dispatch bounds: within one ingestion
cycle, after the initial purge no slot below the retention boundary
`startSlot` is ever dispatched to the job queue, and no slot `s` is
dispatched before the wall clock reaches
`genesisTime + (s + lag) * secondsPerSlot` with `lag = 8`, provided the
cycle's slot range stays within `uint64` and the lag deadline
`secondsPerSlot · (slot + 8)` seconds stays within int64 nanoseconds;
beyond that bound the Go duration arithmetic wraps and the slot is
dispatched without the lag wait. -/
theorem scheduler_dispatch_bounds (db : DB) (isFilled : Nat → Bool)
    (genesis : Int) (startSlot : Nat) (now : Int) (fuel : Nat)
    (h64 : startSlot + fuel + 8 ≤ 2 ^ 64)
    (hns : secondsPerSlot * 10 ^ 9 * (startSlot + fuel + 8) < 2 ^ 63) :
    ∀ p ∈ (scrapeCycle db isFilled genesis startSlot now fuel).2,
      startSlot ≤ p.1 ∧
      genesis + (secondsPerSlot : Int) * 10 ^ 9 * ((p.1 : Int) + 8) ≤ p.2 :=
  fun p hp => scheduleLoop_bounds isFilled genesis fuel startSlot now h64 hns p hp

theorem scheduler_dispatch_bounds_witness :
    50 ≤ ((50, (696000000000 : Int))).1 ∧
    (0 : Int) + (secondsPerSlot : Int) * 10 ^ 9 * ((((50, (696000000000 : Int))).1 : Int) + 8)
      ≤ ((50, (696000000000 : Int))).2 :=
  scheduler_dispatch_bounds [] (fun _ => false) 0 50 0 3 (by norm_num)
    (by norm_num [secondsPerSlot]) (50, 696000000000) (by decide)

end Blockbuster
